import Mathlib

/-!
# Verification of the `@lumjs/compat/modelapi` core

A shallow embedding of the two classes of this repository:

* `InitGroup` (src/unnamed/part_000): a named collection of callable
  initializers with run-once bookkeeping (`add`, `need`, `run`).
* `Extension` (src/lib/extension.js): a base class binding itself to a
  parent `Model` and grafting forwarding methods onto it
  (`constructor`, `addHandledMethod`, `addHandledMethods`).

JavaScript dynamic values are modelled by the inductive `JSVal`
(`undefined`, `null`, booleans, integer numbers, strings, object
references); callables are modelled as Lean functions over `JSVal`,
and thrown `Error`s as `Except String`.  Where a claim needs to
observe *that* an opaque callable was invoked (and with which
receiver and arguments), the embedded operation additionally returns
an explicit list of invocation events; this event list is the standard
observability instrumentation and corresponds to nothing stored by the
JavaScript code.
-/

/-- A JavaScript value, restricted to the shapes this library inspects.
Numbers are modelled as integers (no NaN), objects by an identity tag. -/
inductive JSVal where
  | undef
  | null
  | bool (b : Bool)
  | num (n : Int)
  | str (s : String)
  | obj (id : Nat)
deriving DecidableEq, Repr

/-- JavaScript truthiness: `undefined`, `null`, `false`, `0` and `""`
are falsy, everything else (in our value domain) is truthy. -/
def truthy : JSVal → Bool
  | .undef => false
  | .null => false
  | .bool b => b
  | .num n => n ≠ 0
  | .str s => s ≠ ""
  | .obj _ => true

/-- Coercion of a (truthy) value used as a property key, as JavaScript
`ToPropertyKey` behaves on our value domain. -/
def jsToKey : JSVal → String
  | .undef => "undefined"
  | .null => "null"
  | .bool b => cond b "true" "false"
  | .num n => toString n
  | .str s => s
  | .obj _ => "[object Object]"

/-- Association-list lookup by string key, first match wins.  This
models reading an own property of a plain JavaScript object used as a
dictionary (`none` = property absent).  The prototype-chain quirk of
plain `{}` dictionaries (keys such as `"constructor"` shadowing
inherited values) is outside the claims under study and not modelled
for `InitGroup.methods`; the `Parent` model below does model a
prototype chain where a claim depends on it. -/
def alookup {α : Type} : List (String × α) → String → Option α
  | [], _ => none
  | (k, v) :: t, s => if k = s then some v else alookup t s

/-- Association-list update-or-append: models JavaScript property
assignment on a plain object (existing key keeps its position, a new
key is appended in insertion order). -/
def aset {α : Type} : List (String × α) → String → α → List (String × α)
  | [], k, v => [(k, v)]
  | (k', v') :: t, k, v => if k' = k then (k, v) :: t else (k', v') :: aset t k v

/-! ## `for...in` key enumeration order

JavaScript `for...in` over a plain object visits own enumerable keys
in `OrdinaryOwnPropertyKeys` order: keys that are array indices
(canonical decimal strings whose value is below `2^32 - 1`) in
ascending numeric order first, then the remaining string keys in
property-creation (insertion) order. -/

/-- Numeric value of a digit string. -/
def keyNum (cs : List Char) : Nat :=
  cs.foldl (fun n c => n * 10 + (c.toNat - 48)) 0

/-- Numeric value of a string key. -/
def keyNumS (s : String) : Nat := keyNum s.data

/-- Whether a string is an array index in the ECMAScript sense:
the canonical decimal representation (no leading zero except `"0"`)
of an integer `n` with `0 ≤ n < 2^32 - 1`. -/
def isArrayIndex (s : String) : Bool :=
  match s.data with
  | [] => false
  | c :: cs =>
      (c :: cs).all Char.isDigit && (c ≠ '0' || cs = [])
        && keyNum (c :: cs) < 4294967295

/-- `for...in` enumeration order of the given own keys (given in
property-creation order): array-index keys in ascending numeric order
first, then the remaining keys in creation order. -/
def jsEnumOrder (keys : List String) : List String :=
  List.insertionSort (fun a b => keyNumS a ≤ keyNumS b) (keys.filter isArrayIndex)
    ++ keys.filter (fun k => !isArrayIndex k)

/-! ## InitGroup -/

/-- The receiver (`this`) an initializer is invoked with: either the
group's `api` value or the `InitGroup` object itself. -/
inductive GThis where
  | apiOf (v : JSVal)
  | group
deriving DecidableEq, Repr

/-- A registered initializer: the callable together with the two
out-of-band flags the source stores on the function object itself
(`method._run_init`, `method._this_api`).  The callable is a pure
function of receiver and `conf`. -/
structure InitMethod where
  fn : GThis → JSVal → JSVal
  run_init : Bool
  this_api : Bool

/-- An observed invocation of a registered initializer: its name, the
receiver it was called with, and the `conf` argument it received. -/
structure Invocation where
  name : String
  receiver : GThis
  conf : JSVal
deriving DecidableEq, Repr

/-- The `InitGroup` state: its name, the `api` reference (`null` when
absent, per the constructor default), and the `methods` dictionary in
property-creation order. -/
structure InitGroup where
  name : String
  api : JSVal
  methods : List (String × InitMethod)

/-- An argument passed in `add`'s `method` position: either a callable
(`typeof method === 'function'`) or any other value. -/
inductive AddArg where
  | callable (f : GThis → JSVal → JSVal)
  | value (v : JSVal)

namespace InitGroup

/-- `InitGroup.add(name, method, apiIsThis)`: registers `method` under
`name` when `name` is a string, `method` is callable and the name is
not yet registered; stores `_run_init = false` and
`_this_api = apiIsThis`; returns `true` on success and `false` (after
a `console.error`, not modelled) otherwise, leaving the group
untouched.  `apiIsThis` is only ever consumed through its truthiness,
so it is modelled as a `Bool`. -/
def add (g : InitGroup) (nameArg : JSVal) (method : AddArg) (apiIsThis : Bool) :
    Bool × InitGroup :=
  match nameArg, method with
  | .str s, .callable f =>
      match alookup g.methods s with
      | none =>
          (true, { g with methods := g.methods ++ [(s, ⟨f, false, apiIsThis⟩)] })
      | some _ => (false, g)
  | _, _ => (false, g)

/-- Mark the named registration as having run (`meth._run_init = true`). -/
def setRunInit : List (String × InitMethod) → String → List (String × InitMethod)
  | [], _ => []
  | (k, m) :: t, n =>
      if k = n then (k, { m with run_init := true }) :: t
      else (k, m) :: setRunInit t n

/-- `InitGroup.need(name, conf)`: runs the named initializer at most
once.  Unregistered name: returns `false`.  Already run: returns
`true`.  Otherwise invokes the callable with receiver `api` (when
`_this_api` is set and `api` is truthy) or the group itself, marks
`_run_init = true`, and returns the callable's return value.  The
third component is the list of observed invocations (empty or a
singleton). -/
def need (g : InitGroup) (name : String) (conf : JSVal) :
    JSVal × InitGroup × List Invocation :=
  match alookup g.methods name with
  | none => (.bool false, g, [])
  | some meth =>
      if meth.run_init then (.bool true, g, [])
      else
        let wantThis : GThis :=
          if meth.this_api && truthy g.api then .apiOf g.api else .group
        (meth.fn wantThis conf,
         { g with methods := setRunInit g.methods name },
         [⟨name, wantThis, conf⟩])

/-- A sequence of `need` calls executed in order, accumulating the
observed invocations.  (Specification-side helper used to express
"across any sequence of `need` calls".) -/
def needSeq : InitGroup → List (String × JSVal) → InitGroup × List Invocation
  | g, [] => (g, [])
  | g, c :: t =>
      let r := need g c.1 c.2
      let rest := needSeq r.2.1 t
      (rest.1, r.2.2 ++ rest.2)

/-- The body of `run`'s `for (const name in this.methods)` loop:
`need(name, conf)` for each enumerated name in turn, return values
discarded. -/
def runNames : InitGroup → List String → JSVal → InitGroup × List Invocation
  | g, [], _ => (g, [])
  | g, n :: t, conf =>
      let r := need g n conf
      let rest := runNames r.2.1 t conf
      (rest.1, r.2.2 ++ rest.2)

/-- `InitGroup.run(conf)`: calls `need(name, conf)` for every key of
`this.methods` in `for...in` enumeration order.  The JavaScript method
has no `return` statement, so it returns `undefined` and aggregates
nothing; the model returns the final state and the observed
invocations. -/
def run (g : InitGroup) (conf : JSVal) : InitGroup × List Invocation :=
  runNames g (jsEnumOrder (g.methods.map Prod.fst)) conf

end InitGroup

/-! ## Extension -/

/-- The receiver choice captured by a forwarder at installation time
(`let applyThis = modelIsThis ? this.parent : this`): either the
parent `Model` object or the extension itself. -/
inductive HThis where
  | model
  | extension
deriving DecidableEq, Repr

/-- An observed invocation of an extension method: which method, with
which receiver and arguments, and the value the method computed. -/
structure CallEv where
  name : String
  receiver : HThis
  args : List JSVal
  ret : JSVal
deriving DecidableEq, Repr

/-- An extension method: a pure function of the receiver choice and
the argument list. -/
def ExtMethod : Type := HThis → List JSVal → JSVal

/-- A property value on the parent `Model`: either a plain value or a
callable.  A callable installed on the parent returns its JavaScript
return value together with the extension-method invocations it
performed (the observability instrumentation). -/
inductive PropVal where
  | v (x : JSVal)
  | fn (f : List JSVal → JSVal × List CallEv)

/-- `=== undefined` on a property's current value. -/
def PropVal.isUndef : PropVal → Bool
  | .v .undef => true
  | _ => false

/-- The parent `Model`'s property namespace: own properties (in
creation order) and inherited (prototype-chain) properties.  An own
entry whose value is `.v .undef` models a property that exists with
value `undefined`. -/
structure Parent where
  own : List (String × PropVal)
  proto : List (String × PropVal)

/-- Property read `parent[k]`: own property if present (even when its
value is `undefined`), else the inherited value, else `undefined`. -/
def getVal (p : Parent) (k : String) : PropVal :=
  match alookup p.own k with
  | some pv => pv
  | none => (alookup p.proto k).getD (.v .undef)

/-- Property write `parent[k] = pv`: always creates/overwrites an own
property. -/
def setOwn (p : Parent) (k : String) (pv : PropVal) : Parent :=
  { p with own := aset p.own k pv }

/-- An `Extension` instance: the bound parent and the extension's own
callable methods (`this[srcName]` lookups resolve here; the method
table is immutable in this model, so a forwarder capturing the
extension reference and looking `srcName` up at call time is
equivalent to capturing the method at installation time). -/
structure Extension where
  parent : Parent
  methods : List (String × ExtMethod)

/-- Direct invocation `ext[srcName](args...)` of an extension method
with an explicit receiver choice: the method's return value, together
with the observed invocation event. -/
def callExtMethod (e : Extension) (srcName : String) (tgt : HThis) (args : List JSVal) :
    JSVal × List CallEv :=
  match alookup e.methods srcName with
  | some m => (m tgt args, [⟨srcName, tgt, args, m tgt args⟩])
  | none => (.undef, [])

/-- `destName = destName || srcName`: a falsy `destName` resolves to
`srcName`, a truthy one is used as the property key. -/
def resolveDest (destName : JSVal) (srcName : String) : String :=
  if truthy destName then jsToKey destName else srcName

/-- The forwarding closure
`function () { ext[srcName].apply(applyThis, arguments) }`: invokes
the extension method with the captured receiver choice and the
forwarded arguments; its body has no `return` statement, so it returns
`undefined`, discarding the method's computed value (which the
invocation event records). -/
def mkForwarder (srcName : String) (m : ExtMethod) (applyThis : HThis) : PropVal :=
  .fn fun args => (JSVal.undef, [⟨srcName, applyThis, args, m applyThis args⟩])

/-- `Extension.prototype.addHandledMethod(srcName, destName,
modelIsThis, canReplace)`: requires `this[srcName]` to be callable
(else throws `srcName + " method not found in the Extension"`);
requires `canReplace` truthy or `parent[destName] === undefined` (else
throws `destName + " was already defined in the Model"`); otherwise
installs on the parent a forwarder that applies the extension method
to the forwarded arguments with receiver `parent` (when `modelIsThis`
is truthy) or the extension, discarding the result (the forwarder body
has no `return` statement, so it returns `undefined`).  Thrown
`Error`s are modelled by `Except.error`; on error no state changes. -/
def addHandledMethod (e : Extension) (srcName : String)
    (destName modelIsThis canReplace : JSVal) : Except String Extension :=
  let destN := resolveDest destName srcName
  match alookup e.methods srcName with
  | some m =>
      if truthy canReplace || (getVal e.parent destN).isUndef then
        let applyThis : HThis := if truthy modelIsThis then .model else .extension
        .ok { e with parent := setOwn e.parent destN (mkForwarder srcName m applyThis) }
      else .error (destN ++ " was already defined in the Model")
  | none => .error (srcName ++ " method not found in the Extension")

/-- A value in a keyed `methodsToAdd` mapping, discriminated the way
`addHandledMethods` sniffs it with `typeof`: a string, a boolean, an
object carrying the three option fields (absent fields are
`undefined`), or anything else (skipped by the source, which has no
matching branch).  The JavaScript value `null` (for which `typeof`
also answers `"object"`, making the source throw a `TypeError` on
field access) is outside the claims under study and not modelled. -/
inductive SpecVal where
  | vstr (d : String)
  | vbool (b : Bool)
  | vobj (destName modelIsThis canReplace : JSVal)
  | vother (x : JSVal)

/-- The `methodsToAdd` argument's shape: an `Array`, any other object
(its enumerable entries in `for...in` order), or a non-object value. -/
inductive MTA where
  | arr (names : List String)
  | objSpec (entries : List (String × SpecVal))
  | other (x : JSVal)

/-- The `Array` branch of `addHandledMethods`: each member is a
`srcName`, all other parameters defaulted (`undefined`); a thrown
error aborts the loop and propagates. -/
def addHandledList : Extension → List String → Except String Extension
  | e, [] => .ok e
  | e, n :: t =>
      match addHandledMethod e n .undef .undef .undef with
      | .ok e' => addHandledList e' t
      | .error msg => .error msg

/-- The keyed-mapping branch of `addHandledMethods`: a string value is
the `destName`, a boolean value is `modelIsThis` (with `destName`
passed as `null`), an object value supplies the three fields, and any
other value matches no branch and is skipped. -/
def addHandledSpecs : Extension → List (String × SpecVal) → Except String Extension
  | e, [] => .ok e
  | e, (s, .vstr d) :: t =>
      match addHandledMethod e s (.str d) .undef .undef with
      | .ok e' => addHandledSpecs e' t
      | .error msg => .error msg
  | e, (s, .vbool b) :: t =>
      match addHandledMethod e s .null (.bool b) .undef with
      | .ok e' => addHandledSpecs e' t
      | .error msg => .error msg
  | e, (s, .vobj d m c) :: t =>
      match addHandledMethod e s d m c with
      | .ok e' => addHandledSpecs e' t
      | .error msg => .error msg
  | e, (_, .vother _) :: t => addHandledSpecs e t

/-- `Extension.prototype.addHandledMethods(methodsToAdd)`: dispatches
on the argument's shape; a non-object argument is reported with
`console.error` (not modelled) and registers nothing. -/
def addHandledMethods (e : Extension) (methodsToAdd : MTA) : Except String Extension :=
  match methodsToAdd with
  | .arr names => addHandledList e names
  | .objSpec kvs => addHandledSpecs e kvs
  | .other _ => .ok e

/-- The argument passed to the `Extension` constructor, discriminated
by the `instanceof Model` check.

Modelled from the spec: the `Model` class itself (`require('./model')`)
is not among the provided sources, so instance-hood is abstracted as
this tag — "parentInstance must satisfy the host-object capability
contract (constructed via the host's own constructor/type)". -/
inductive ExtArg where
  | model (p : Parent)
  | nonModel (x : JSVal)

/-- The `Extension` constructor: throws
`"Extension must be passed it's parent Model"` unless the argument is
a `Model` instance; otherwise stores it as `this.parent` and, when the
concrete class defines a callable `setup`, invokes
`this.setup(apiInstance)` synchronously before returning.  The second
component records the `setup` invocations with the argument each
received (the concrete `setup` body is host-defined and opaque); on a
throw it is empty — no state is installed. -/
def mkExtension (ms : List (String × ExtMethod)) (apiInstance : ExtArg) :
    Except String Extension × List Parent :=
  match apiInstance with
  | .nonModel _ => (.error "Extension must be passed it's parent Model", [])
  | .model p =>
      (.ok ⟨p, ms⟩, if (alookup ms "setup").isSome then [p] else [])

/-! ## Helper lemmas -/

theorem alookup_mem {α : Type} {l : List (String × α)} {k : String} {v : α}
    (h : alookup l k = some v) : (k, v) ∈ l := by
  induction l with
  | nil => simp [alookup] at h
  | cons p t ih =>
      by_cases hk : p.1 = k
      · have h2 : p.2 = v := by simpa [alookup, hk] using h
        have h3 : (k, v) = p := by rw [← hk, ← h2]
        rw [h3]
        exact List.mem_cons_self p t
      · have h2 : alookup t k = some v := by simpa [alookup, hk] using h
        exact List.mem_cons_of_mem _ (ih h2)

theorem alookup_of_mem_fst {α : Type} {l : List (String × α)} {k : String}
    (h : k ∈ l.map Prod.fst) : ∃ v, alookup l k = some v := by
  induction l with
  | nil => simp at h
  | cons p t ih =>
      by_cases hk : p.1 = k
      · exact ⟨p.2, by simp [alookup, hk]⟩
      · have h1 : k ∈ t.map Prod.fst := by
          simp only [List.map_cons, List.mem_cons] at h
          rcases h with h | h
          · exact absurd h.symm hk
          · exact h
        obtain ⟨v, hv⟩ := ih h1
        exact ⟨v, by simp [alookup, hk, hv]⟩

theorem alookup_aset_self {α : Type} (l : List (String × α)) (k : String) (v : α) :
    alookup (aset l k v) k = some v := by
  induction l with
  | nil => simp [aset, alookup]
  | cons p t ih =>
      by_cases hk : p.1 = k <;> simp [aset, alookup, hk, ih]

namespace InitGroup

theorem setRunInit_map_fst (l : List (String × InitMethod)) (n : String) :
    (setRunInit l n).map Prod.fst = l.map Prod.fst := by
  induction l with
  | nil => rfl
  | cons p t ih =>
      by_cases hk : p.1 = n <;> simp [setRunInit, hk, ih]

theorem alookup_setRunInit_ne (l : List (String × InitMethod)) {k n : String}
    (h : k ≠ n) : alookup (setRunInit l n) k = alookup l k := by
  induction l with
  | nil => rfl
  | cons p t ih =>
      have hnk : ¬ n = k := fun hh => h hh.symm
      by_cases hk : p.1 = n
      · simp [setRunInit, alookup, hk, hnk]
      · by_cases hk2 : p.1 = k <;> simp [setRunInit, alookup, hk, hk2, h, ih]

theorem alookup_setRunInit_self (l : List (String × InitMethod)) (n : String) :
    alookup (setRunInit l n) n
      = (alookup l n).map (fun m => { m with run_init := true }) := by
  induction l with
  | nil => rfl
  | cons p t ih =>
      by_cases hk : p.1 = n <;> simp [setRunInit, alookup, hk, ih]

/-- `need` on an already-run registration: no-op returning `true`. -/
theorem need_of_done {g : InitGroup} {name : String} {m : InitMethod}
    (h : alookup g.methods name = some m) (hr : m.run_init = true) (conf : JSVal) :
    need g name conf = (.bool true, g, []) := by
  simp [need, h, hr]

/-- `need` on a not-yet-run registration: invokes the callable and
marks it run. -/
theorem need_of_fresh {g : InitGroup} {name : String} {m : InitMethod}
    (h : alookup g.methods name = some m) (hr : m.run_init = false) (conf : JSVal) :
    need g name conf
      = (m.fn (if m.this_api && truthy g.api then .apiOf g.api else .group) conf,
         { g with methods := setRunInit g.methods name },
         [⟨name, if m.this_api && truthy g.api then .apiOf g.api else .group, conf⟩]) := by
  simp [need, h, hr]

/-- Once a registration has run, any later `need` call (on any name)
keeps it run and never produces an invocation of it. -/
theorem need_preserves_done {g : InitGroup} {name : String} {m : InitMethod}
    (h : alookup g.methods name = some m) (hr : m.run_init = true)
    (x : String) (c : JSVal) :
    alookup (need g x c).2.1.methods name = some m
      ∧ ∀ e ∈ (need g x c).2.2, e.name ≠ name := by
  rcases hx : alookup g.methods x with _ | mx
  · simp [need, hx, h]
  · by_cases hrx : mx.run_init
    · simp [need, hx, hrx, h]
    · have hxn : x ≠ name := by
        intro he
        subst he
        rw [hx] at h
        cases h
        rw [hr] at hrx
        exact hrx rfl
      have hne : name ≠ x := fun hh => hxn hh.symm
      have hrx' : mx.run_init = false := by simpa using hrx
      rw [need_of_fresh hx hrx' c]
      refine ⟨?_, ?_⟩
      · simpa [alookup_setRunInit_ne _ hne] using h
      · intro e he
        simp at he
        subst he
        simpa using hxn

/-- `need_preserves_done`, iterated over any sequence of `need` calls. -/
theorem needSeq_preserves_done {name : String} {m : InitMethod} :
    ∀ (cs : List (String × JSVal)) (g : InitGroup),
      alookup g.methods name = some m → m.run_init = true →
      alookup (needSeq g cs).1.methods name = some m
        ∧ ∀ e ∈ (needSeq g cs).2, e.name ≠ name
  | [], g, h, _ => by simpa [needSeq] using h
  | c :: t, g, h, hr => by
      have h1 := need_preserves_done h hr c.1 c.2
      have h2 := needSeq_preserves_done t _ h1.1 hr
      refine ⟨by simpa [needSeq] using h2.1, ?_⟩
      intro e he
      simp only [needSeq, List.mem_append] at he
      rcases he with he | he
      · exact h1.2 e he
      · exact h2.2 e he

/-- When every listed name is registered and not yet run, and the
names are distinct, the `run` loop invokes exactly the listed names in
order. -/
theorem runNames_trace :
    ∀ (names : List String) (g : InitGroup) (conf : JSVal),
      (∀ n ∈ names, ∃ m, alookup g.methods n = some m ∧ m.run_init = false) →
      names.Nodup →
      (runNames g names conf).2.map Invocation.name = names
  | [], g, conf, _, _ => by simp [runNames]
  | n :: t, g, conf, hreg, hnd => by
      obtain ⟨m, hm, hfr⟩ := hreg n (List.mem_cons_self n t)
      have hne := need_of_fresh hm hfr conf
      have hstep : ∀ k ∈ t, ∃ m', alookup (need g n conf).2.1.methods k = some m'
          ∧ m'.run_init = false := by
        intro k hk
        obtain ⟨m', hm', hfr'⟩ := hreg k (List.mem_cons_of_mem _ hk)
        have hkn : k ≠ n := by
          rintro rfl
          exact (List.nodup_cons.mp hnd).1 hk
        refine ⟨m', ?_, hfr'⟩
        rw [hne]
        simpa [alookup_setRunInit_ne _ hkn] using hm'
      have ih := runNames_trace t (need g n conf).2.1 conf hstep (List.nodup_cons.mp hnd).2
      simp only [runNames, List.map_append]
      rw [ih, hne]
      simp

end InitGroup

theorem jsEnumOrder_perm (keys : List String) : List.Perm (jsEnumOrder keys) keys := by
  unfold jsEnumOrder
  exact ((List.perm_insertionSort _ _).append_right _).trans
    (List.filter_append_perm _ _)

theorem jsEnumOrder_of_no_index {keys : List String}
    (h : ∀ k ∈ keys, isArrayIndex k = false) : jsEnumOrder keys = keys := by
  unfold jsEnumOrder
  have h1 : keys.filter isArrayIndex = [] :=
    List.filter_eq_nil_iff.mpr (fun a ha => by simp [h a ha])
  have h2 : keys.filter (fun k => !isArrayIndex k) = keys :=
    List.filter_eq_self.mpr (fun a ha => by simp [h a ha])
  simp [h1, h2]

/-- The two `Error` messages of `addHandledMethod` can never coincide,
whatever the names involved (their last characters differ). -/
theorem handled_msgs_ne (a b : String) :
    a ++ " method not found in the Extension"
      ≠ b ++ " was already defined in the Model" := by
  intro h
  have hd : (a ++ " method not found in the Extension").data
      = (b ++ " was already defined in the Model").data := by rw [h]
  rw [String.data_append, String.data_append] at hd
  have hl := congrArg List.getLast? hd
  rw [List.getLast?_append_of_ne_nil _ (by decide),
      List.getLast?_append_of_ne_nil _ (by decide)] at hl
  exact absurd hl (by decide)

theorem getVal_setOwn_self (p : Parent) (k : String) (pv : PropVal) :
    getVal (setOwn p k pv) k = pv := by
  simp [getVal, setOwn, alookup_aset_self]

/-- The successful branch of `addHandledMethod`, as an equation. -/
theorem addHandledMethod_ok_eq {e : Extension} {srcName : String}
    {destName modelIsThis canReplace : JSVal} {m : ExtMethod}
    (hsrc : alookup e.methods srcName = some m)
    (hrep : (truthy canReplace
        || (getVal e.parent (resolveDest destName srcName)).isUndef) = true) :
    addHandledMethod e srcName destName modelIsThis canReplace
      = .ok { e with parent := setOwn e.parent (resolveDest destName srcName) (mkForwarder srcName m (if truthy modelIsThis then .model else .extension)) } := by
  simp [addHandledMethod, hsrc, hrep]

theorem addHandledList_eq_foldlM (names : List String) :
    ∀ e : Extension, addHandledList e names
      = names.foldlM (fun acc n => addHandledMethod acc n .undef .undef .undef) e := by
  induction names with
  | nil => intro e; rfl
  | cons n t ih =>
      intro e
      rcases hstep : addHandledMethod e n .undef .undef .undef with msg | e'
      · simp only [addHandledList, List.foldlM_cons, hstep]
        rfl
      · simp only [addHandledList, List.foldlM_cons, hstep]
        rw [ih]
        rfl

/-! ## Concrete instances used by witnesses and counterexamples -/

/-- A sample initializer. -/
def wMeth : InitMethod := ⟨fun _ _ => JSVal.str "r", false, false⟩

/-- A group with two non-numeric names registered, none run yet. -/
def wGroup : InitGroup := ⟨"g", JSVal.null, [("a", wMeth), ("b", wMeth)]⟩

/-- An initializer registered with `apiIsThis = true`. -/
def mW3 : InitMethod := ⟨fun _ _ => JSVal.str "r", false, true⟩

/-- A group with a non-null `api` and one api-bound initializer. -/
def gW3 : InitGroup := ⟨"g", JSVal.obj 0, [("a", mW3)]⟩

/-- A group whose two registered names are the array-index strings
`"1"` and `"0"`, registered in that (insertion) order. -/
def cxGroup : InitGroup :=
  ⟨"g", JSVal.null, [("1", ⟨fun _ _ => JSVal.undef, false, false⟩),
                     ("0", ⟨fun _ _ => JSVal.undef, false, false⟩)]⟩

/-! ## The claims -/

/-- C1: for every name registered in an `InitGroup` whose initializer
has completed a first invocation via `need(name, conf)`, every
subsequent call to `need(name, conf2)` does not invoke the initializer
again and returns `true` — across any interleaved sequence of further
`need` calls, no invocation of that name ever occurs again, so the
underlying initializer runs exactly once. -/
theorem need_invokes_at_most_once (g : InitGroup) (name : String) (conf : JSVal)
    (h : (alookup g.methods name).isSome = true) :
    ∀ (calls : List (String × JSVal)) (conf₂ : JSVal),
      (∀ e ∈ (InitGroup.needSeq (InitGroup.need g name conf).2.1 calls).2,
          e.name ≠ name)
      ∧ (InitGroup.need
            (InitGroup.needSeq (InitGroup.need g name conf).2.1 calls).1
            name conf₂).1 = JSVal.bool true
      ∧ (InitGroup.need
            (InitGroup.needSeq (InitGroup.need g name conf).2.1 calls).1
            name conf₂).2.2 = [] := by
  intro calls conf₂
  obtain ⟨m, hm⟩ := Option.isSome_iff_exists.mp h
  have hdone : ∃ m', alookup (InitGroup.need g name conf).2.1.methods name = some m'
      ∧ m'.run_init = true := by
    by_cases hr : m.run_init
    · exact ⟨m, by rw [InitGroup.need_of_done hm hr conf]; exact hm, hr⟩
    · have hr' : m.run_init = false := by simpa using hr
      refine ⟨{ m with run_init := true }, ?_, rfl⟩
      rw [InitGroup.need_of_fresh hm hr' conf]
      simp [InitGroup.alookup_setRunInit_self, hm]
  obtain ⟨m', hm', hr'⟩ := hdone
  have hseq := InitGroup.needSeq_preserves_done calls _ hm' hr'
  refine ⟨hseq.2, ?_, ?_⟩
  · rw [InitGroup.need_of_done hseq.1 hr' conf₂]
  · rw [InitGroup.need_of_done hseq.1 hr' conf₂]

/-- C1 witness: after a first `need("a", …)` on a concrete group,
a later `need("b", …); need("a", …)` sequence never invokes `"a"`
again and a further `need("a", …)` returns `true` with no
invocation. -/
theorem need_invokes_at_most_once_witness :
    (∀ e ∈ (InitGroup.needSeq (InitGroup.need wGroup "a" JSVal.null).2.1
        [("b", JSVal.null), ("a", JSVal.num 1)]).2, e.name ≠ "a")
    ∧ (InitGroup.need
          (InitGroup.needSeq (InitGroup.need wGroup "a" JSVal.null).2.1
            [("b", JSVal.null), ("a", JSVal.num 1)]).1
          "a" (JSVal.num 2)).1 = JSVal.bool true
    ∧ (InitGroup.need
          (InitGroup.needSeq (InitGroup.need wGroup "a" JSVal.null).2.1
            [("b", JSVal.null), ("a", JSVal.num 1)]).1
          "a" (JSVal.num 2)).2.2 = [] :=
  need_invokes_at_most_once wGroup "a" JSVal.null (by decide)
    [("b", JSVal.null), ("a", JSVal.num 1)] (JSVal.num 2)

/-- C2 counterexample: on a group whose names were registered in the
order `"1"`, `"0"`, `run` invokes them as `"0"`, `"1"` — JavaScript
`for...in` enumerates array-index keys in ascending numeric order, not
in registration order — so `run` does not call `need` for every
registered name in registration (insertion) order. -/
theorem run_not_insertion_order :
    ¬ (InitGroup.run cxGroup JSVal.null).2.map Invocation.name
        = cxGroup.methods.map Prod.fst := by decide

/-- C2 (amended): `run(conf)` calls `need(name, conf)` for every
registered name in JavaScript own-property enumeration order —
array-index names in ascending numeric order first, then the remaining
names in registration (insertion) order; this coincides with insertion
order whenever no registered name is an array-index string.  All
registered initializers are attempted with no short-circuiting, each
(not-yet-run) initializer is invoked exactly once, and `run` returns
no aggregated result (the JavaScript method returns `undefined`). -/
theorem run_enum_order (g : InitGroup) (conf : JSVal)
    (hnd : (g.methods.map Prod.fst).Nodup)
    (hfr : ∀ kv ∈ g.methods, kv.2.run_init = false) :
    (InitGroup.run g conf).2.map Invocation.name
        = jsEnumOrder (g.methods.map Prod.fst)
      ∧ (∀ n ∈ g.methods.map Prod.fst,
          ((InitGroup.run g conf).2.map Invocation.name).count n = 1)
      ∧ ((∀ k ∈ g.methods.map Prod.fst, isArrayIndex k = false) →
          (InitGroup.run g conf).2.map Invocation.name = g.methods.map Prod.fst) := by
  have hperm := jsEnumOrder_perm (g.methods.map Prod.fst)
  have hreg : ∀ n ∈ jsEnumOrder (g.methods.map Prod.fst),
      ∃ m, alookup g.methods n = some m ∧ m.run_init = false := by
    intro n hn
    obtain ⟨m, hm⟩ := alookup_of_mem_fst (hperm.mem_iff.mp hn)
    exact ⟨m, hm, hfr (n, m) (alookup_mem hm)⟩
  have hnd' : (jsEnumOrder (g.methods.map Prod.fst)).Nodup := hperm.nodup_iff.mpr hnd
  have htr : (InitGroup.run g conf).2.map Invocation.name
      = jsEnumOrder (g.methods.map Prod.fst) :=
    InitGroup.runNames_trace (jsEnumOrder (g.methods.map Prod.fst)) g conf hreg hnd'
  refine ⟨htr, ?_, ?_⟩
  · intro n hn
    rw [htr]
    exact List.count_eq_one_of_mem hnd' (hperm.mem_iff.mpr hn)
  · intro hno
    rw [htr, jsEnumOrder_of_no_index hno]

/-- C2 witness: on a concrete fresh group with the (non-numeric) names
`"a"`, `"b"`, `run` invokes exactly those names in enumeration
(= insertion) order. -/
theorem run_enum_order_witness :
    (InitGroup.run wGroup JSVal.null).2.map Invocation.name
      = jsEnumOrder ["a", "b"] :=
  (run_enum_order wGroup JSVal.null (by decide) (by decide)).1

/-- C3: for every registered initializer not yet run, `need(name,
conf)` invokes it with receiver `api` when it was registered with
`apiIsThis = true` and the group's `api` is non-null, and with the
group itself otherwise; `conf` is the sole argument, `hasRun` becomes
`true` regardless of the return value, and `need` returns the
initializer's return value.  (`api` is restricted to its documented
domain — an object reference or `null` — under which the source's
truthiness test on `this.api` coincides with a non-null test.) -/
theorem need_fresh_characterization (g : InitGroup) (name : String) (conf : JSVal)
    (meth : InitMethod) (h : alookup g.methods name = some meth)
    (hfr : meth.run_init = false)
    (hdom : g.api = JSVal.null ∨ ∃ i, g.api = JSVal.obj i) :
    (InitGroup.need g name conf).1
        = meth.fn (if meth.this_api = true ∧ g.api ≠ JSVal.null
            then .apiOf g.api else .group) conf
      ∧ (InitGroup.need g name conf).2.2
        = [⟨name, if meth.this_api = true ∧ g.api ≠ JSVal.null
              then .apiOf g.api else .group, conf⟩]
      ∧ alookup (InitGroup.need g name conf).2.1.methods name
        = some { meth with run_init := true } := by
  have hcond : (meth.this_api && truthy g.api) = true
      ↔ (meth.this_api = true ∧ g.api ≠ JSVal.null) := by
    rcases hdom with hdom | ⟨i, hdom⟩ <;> simp [hdom, truthy]
  have hif : (if meth.this_api && truthy g.api then GThis.apiOf g.api else GThis.group)
      = (if meth.this_api = true ∧ g.api ≠ JSVal.null
          then GThis.apiOf g.api else GThis.group) := by
    by_cases hc : meth.this_api = true ∧ g.api ≠ JSVal.null
    · rw [if_pos (hcond.mpr hc), if_pos hc]
    · rw [if_neg (fun hb => hc (hcond.mp hb)), if_neg hc]
  rw [InitGroup.need_of_fresh h hfr conf]
  refine ⟨by rw [hif], by rw [hif], ?_⟩
  simp [InitGroup.alookup_setRunInit_self, h]

/-- C3 witness: on a concrete group with `api = obj 0` and an
initializer registered with `apiIsThis = true`, `need` invokes it with
the `api` as receiver and returns its return value. -/
theorem need_fresh_characterization_witness :
    (InitGroup.need gW3 "a" JSVal.null).1 = JSVal.str "r"
      ∧ (InitGroup.need gW3 "a" JSVal.null).2.2
        = [⟨"a", GThis.apiOf (JSVal.obj 0), JSVal.null⟩] := by
  have h := need_fresh_characterization gW3 "a" JSVal.null mW3
    (by simp [gW3, alookup]) rfl (Or.inr ⟨0, rfl⟩)
  refine ⟨?_, ?_⟩
  · rw [h.1]
    rfl
  · rw [h.2.1]
    rfl

/-- C4: `add` on an already-registered name returns `false` without
throwing and leaves the group (hence the original registration, and
every later `need` outcome) unchanged; `add` likewise returns `false`
and registers nothing when the name is not a string or the method is
not callable. -/
theorem add_failure_cases (g : InitGroup) :
    (∀ (s : String) (m₂ : AddArg) (b : Bool),
        (alookup g.methods s).isSome = true →
        InitGroup.add g (.str s) m₂ b = (false, g)
          ∧ ∀ conf, InitGroup.need (InitGroup.add g (.str s) m₂ b).2 s conf
              = InitGroup.need g s conf)
      ∧ (∀ (nv : JSVal) (m : AddArg) (b : Bool), (∀ s, nv ≠ JSVal.str s) →
          InitGroup.add g nv m b = (false, g))
      ∧ (∀ (nv : JSVal) (x : JSVal) (b : Bool),
          InitGroup.add g nv (.value x) b = (false, g)) := by
  refine ⟨?_, ?_, ?_⟩
  · intro s m₂ b hs
    obtain ⟨m, hm⟩ := Option.isSome_iff_exists.mp hs
    have hadd : InitGroup.add g (.str s) m₂ b = (false, g) := by
      rcases m₂ with f | x <;> simp [InitGroup.add, hm]
    exact ⟨hadd, fun conf => by rw [hadd]⟩
  · intro nv m b hnv
    rcases m with f | x
    · rcases nv with _ | _ | _ | _ | s | _ <;> first
        | rfl
        | exact absurd rfl (hnv s)
    · rcases nv <;> rfl
  · intro nv x b
    rcases nv <;> rfl

/-- C4 witness: a second `add` under the concrete name `"a"` (here
with a non-callable value, and equally for any method argument)
returns `false` and leaves the group untouched. -/
theorem add_failure_cases_witness :
    InitGroup.add wGroup (.str "a") (.value JSVal.null) false = (false, wGroup) :=
  ((add_failure_cases wGroup).1 "a" (.value JSVal.null) false (by decide)).1

/-- C5: constructing an `Extension` with anything that is not a
`Model` instance throws a catchable error and installs no state (no
parent is stored, no `setup` hook runs); with a valid parent the
constructor stores it as `parent` and, when the concrete extension
defines a `setup` method, invokes `setup(parentInstance)` before
construction returns (the execution is synchronous and
single-threaded throughout). -/
theorem extension_constructor_cases (ms : List (String × ExtMethod)) :
    (∀ x, mkExtension ms (.nonModel x)
        = (.error "Extension must be passed it's parent Model", []))
      ∧ (∀ p, mkExtension ms (.model p)
          = (.ok ⟨p, ms⟩, if (alookup ms "setup").isSome then [p] else [])) :=
  ⟨fun _ => rfl, fun _ => rfl⟩

/-- C6: `addHandledMethod` throws, mutating nothing (the error result
carries no updated state), in exactly two cases: the first error —
naming the missing method — exactly when `this[srcName]` is not a
callable on the extension, and the second — destination already
defined — exactly when the source method exists, `canReplace` is falsy
and `parent[destName]` is not `undefined`; in every remaining case it
succeeds. -/
theorem addHandledMethod_error_characterization (e : Extension) (srcName : String)
    (destName modelIsThis canReplace : JSVal) :
    (addHandledMethod e srcName destName modelIsThis canReplace
        = .error (srcName ++ " method not found in the Extension")
      ↔ alookup e.methods srcName = none)
    ∧ (addHandledMethod e srcName destName modelIsThis canReplace
        = .error (resolveDest destName srcName ++ " was already defined in the Model")
      ↔ ((alookup e.methods srcName).isSome = true
          ∧ truthy canReplace = false
          ∧ (getVal e.parent (resolveDest destName srcName)).isUndef = false))
    ∧ ((∃ e', addHandledMethod e srcName destName modelIsThis canReplace = .ok e')
      ↔ ((alookup e.methods srcName).isSome = true
          ∧ (truthy canReplace = true
              ∨ (getVal e.parent (resolveDest destName srcName)).isUndef = true))) := by
  rcases hsrc : alookup e.methods srcName with _ | m
  · refine ⟨by simp [addHandledMethod, hsrc], ?_, ?_⟩
    · constructor
      · intro hcontra
        simp [addHandledMethod, hsrc] at hcontra
        exact absurd hcontra (handled_msgs_ne _ _)
      · rintro ⟨hS, -, -⟩
        simp at hS
    · constructor
      · rintro ⟨e', he'⟩
        simp [addHandledMethod, hsrc] at he'
      · rintro ⟨hS, -⟩
        simp at hS
  · by_cases hrep : (truthy canReplace
        || (getVal e.parent (resolveDest destName srcName)).isUndef) = true
    · refine ⟨?_, ?_, ?_⟩
      · constructor
        · intro hcontra
          simp [addHandledMethod, hsrc, hrep] at hcontra
        · intro hnone
          simp at hnone
      · constructor
        · intro hcontra
          simp [addHandledMethod, hsrc, hrep] at hcontra
        · rintro ⟨-, hcr, hud⟩
          rw [hcr, hud] at hrep
          simp at hrep
      · constructor
        · intro _
          exact ⟨rfl, by simpa [Bool.or_eq_true] using hrep⟩
        · intro _
          rcases hres : addHandledMethod e srcName destName modelIsThis canReplace
            with msg | e'
          · exfalso
            simp [addHandledMethod, hsrc, hrep] at hres
          · exact ⟨e', rfl⟩
    · have hrepf : (truthy canReplace
          || (getVal e.parent (resolveDest destName srcName)).isUndef) = false := by
        simpa using hrep
      have hparts : truthy canReplace = false
          ∧ (getVal e.parent (resolveDest destName srcName)).isUndef = false := by
        constructor
        · rcases htc : truthy canReplace with _ | _
          · rfl
          · rw [htc] at hrepf
            simp at hrepf
        · rcases hud : (getVal e.parent (resolveDest destName srcName)).isUndef
          · rfl
          · rw [hud] at hrepf
            simp at hrepf
      refine ⟨?_, ?_, ?_⟩
      · constructor
        · intro hcontra
          simp [addHandledMethod, hsrc, hrepf] at hcontra
          exact absurd hcontra.symm (handled_msgs_ne _ _)
        · intro hnone
          simp at hnone
      · constructor
        · intro _
          exact ⟨rfl, hparts.1, hparts.2⟩
        · intro _
          simp [addHandledMethod, hsrc, hrepf]
      · constructor
        · rintro ⟨e', he'⟩
          simp [addHandledMethod, hsrc, hrepf] at he'
        · rintro ⟨-, hdisj⟩
          rcases hdisj with hd | hd
          · rw [hparts.1] at hd
            simp at hd
          · rw [hparts.2] at hd
            simp at hd

/-- An extension whose `foo` method returns `1`, with an empty parent. -/
def e7 : Extension := ⟨⟨[], []⟩, [("foo", fun _ _ => JSVal.num 1)]⟩

/-- The extension state after `addHandledMethod('foo')` on `e7`. -/
def e7ok : Extension :=
  match addHandledMethod e7 "foo" .undef .undef .undef with
  | .ok x => x
  | .error _ => e7

/-- The JavaScript return value of calling the installed `parent.foo`
forwarder with no arguments. -/
def e7fwdResult : JSVal :=
  match getVal e7ok.parent "foo" with
  | .fn f => (f []).1
  | .v _ => JSVal.null

/-- C7 counterexample: after a successful `addHandledMethod('foo')` on
a concrete extension whose `foo` returns `1`, invoking the installed
`parent.foo` forwarder returns `undefined` while the direct call of
the extension's `foo` returns `1` — the forwarder does not yield the
same result as the direct call, refuting observable equivalence as
stated. -/
theorem forwarder_result_differs :
    addHandledMethod e7 "foo" .undef .undef .undef = .ok e7ok
      ∧ e7fwdResult = JSVal.undef
      ∧ (callExtMethod e7 "foo" .extension []).1 = JSVal.num 1
      ∧ e7fwdResult ≠ (callExtMethod e7 "foo" .extension []).1 :=
  ⟨rfl, rfl, rfl, by decide⟩

/-- C7 (amended): after a successful
`addHandledMethod(srcName, destName, modelIsThis, …)`, invoking the
installed `parent[destName]` forwarder with any argument list performs
exactly the same underlying invocation as the direct call of the
extension's `srcName` method — same method, same arguments, receiver
`parent` when `modelIsThis` is truthy and the extension itself
otherwise, and the same computed value — but the forwarder discards
that computed value and returns `undefined`, so its result matches the
direct call's only when the method returns `undefined`. -/
theorem forwarder_same_invocation (e : Extension) (srcName : String)
    (destName modelIsThis canReplace : JSVal) (e' : Extension)
    (h : addHandledMethod e srcName destName modelIsThis canReplace = .ok e') :
    ∃ f, getVal e'.parent (resolveDest destName srcName) = .fn f
      ∧ ∀ args,
          (f args).2 = (callExtMethod e srcName
              (if truthy modelIsThis then .model else .extension) args).2
          ∧ (f args).1 = JSVal.undef := by
  rcases hsrc : alookup e.methods srcName with _ | m
  · exfalso
    simp [addHandledMethod, hsrc] at h
  · by_cases hrep : (truthy canReplace
        || (getVal e.parent (resolveDest destName srcName)).isUndef) = true
    · rw [addHandledMethod_ok_eq hsrc hrep] at h
      injection h with h
      subst h
      refine ⟨fun args => (JSVal.undef, [⟨srcName, if truthy modelIsThis then HThis.model else HThis.extension, args, m (if truthy modelIsThis then HThis.model else HThis.extension) args⟩]), ?_, ?_⟩
      · rw [getVal_setOwn_self]
        rfl
      · intro args
        simp [callExtMethod, hsrc]
    · exfalso
      have hrepf : (truthy canReplace
          || (getVal e.parent (resolveDest destName srcName)).isUndef) = false := by
        simpa using hrep
      simp [addHandledMethod, hsrc, hrepf] at h

/-- C7 witness: the amended statement evaluated on the concrete
extension `e7` and its successful default installation of `foo`. -/
theorem forwarder_same_invocation_witness :
    ∃ f, getVal e7ok.parent (resolveDest JSVal.undef "foo") = .fn f
      ∧ ∀ args,
          (f args).2 = (callExtMethod e7 "foo"
              (if truthy JSVal.undef then .model else .extension) args).2
          ∧ (f args).1 = JSVal.undef :=
  forwarder_same_invocation e7 "foo" JSVal.undef JSVal.undef JSVal.undef e7ok rfl

/-- An extension whose `bar` method returns `2`, with an empty parent. -/
def e9 : Extension := ⟨⟨[], []⟩, [("bar", fun _ _ => JSVal.num 2)]⟩

/-- The extension state after `addHandledMethod('bar')` on `e9`. -/
def e9ok : Extension :=
  match addHandledMethod e9 "bar" .undef .undef .undef with
  | .ok x => x
  | .error _ => e9

/-- C9: every successfully installed forwarding method returns
`undefined` when invoked, for every argument list and every choice of
`srcName`, `destName` and `modelIsThis`: the underlying extension
method's return value is computed (it appears as the invocation's
computed value) but discarded. -/
theorem forwarder_returns_undef (e : Extension) (srcName : String)
    (destName modelIsThis canReplace : JSVal) (e' : Extension)
    (h : addHandledMethod e srcName destName modelIsThis canReplace = .ok e') :
    ∃ f m, alookup e.methods srcName = some m
      ∧ getVal e'.parent (resolveDest destName srcName) = .fn f
      ∧ ∀ args, (f args).1 = JSVal.undef
          ∧ (f args).2.map CallEv.ret
              = [m (if truthy modelIsThis then .model else .extension) args] := by
  rcases hsrc : alookup e.methods srcName with _ | m
  · exfalso
    simp [addHandledMethod, hsrc] at h
  · by_cases hrep : (truthy canReplace
        || (getVal e.parent (resolveDest destName srcName)).isUndef) = true
    · rw [addHandledMethod_ok_eq hsrc hrep] at h
      injection h with h
      subst h
      refine ⟨fun args => (JSVal.undef, [⟨srcName, if truthy modelIsThis then HThis.model else HThis.extension, args, m (if truthy modelIsThis then HThis.model else HThis.extension) args⟩]), m, rfl, ?_, ?_⟩
      · rw [getVal_setOwn_self]
        rfl
      · intro args
        simp
    · exfalso
      have hrepf : (truthy canReplace
          || (getVal e.parent (resolveDest destName srcName)).isUndef) = false := by
        simpa using hrep
      simp [addHandledMethod, hsrc, hrepf] at h

/-- C9 witness: on the concrete extension `e9`, the forwarder
installed for `bar` returns `undefined` on every call while the
computed (discarded) value is `2`. -/
theorem forwarder_returns_undef_witness :
    ∃ f m, alookup e9.methods "bar" = some m
      ∧ getVal e9ok.parent (resolveDest JSVal.undef "bar") = .fn f
      ∧ ∀ args, (f args).1 = JSVal.undef
          ∧ (f args).2.map CallEv.ret
              = [m (if truthy JSVal.undef then .model else .extension) args] :=
  forwarder_returns_undef e9 "bar" JSVal.undef JSVal.undef JSVal.undef e9ok rfl

/-- C8: `addHandledMethods` dispatches on the argument's shape: an
ordered list is equivalent to calling `addHandledMethod(name)` with
all other parameters defaulted (`undefined`) for each entry in order;
in a keyed mapping a string value is passed as `destName`, a boolean
value as `modelIsThis` (with `destName` null), and an object value
supplies the `destName`/`modelIsThis`/`canReplace` fields; a
non-object argument logs an error and performs no registrations. -/
theorem addHandledMethods_dispatch (e : Extension) :
    (∀ names, addHandledMethods e (.arr names)
        = names.foldlM (fun acc n => addHandledMethod acc n .undef .undef .undef) e)
      ∧ (∀ s d t, addHandledMethods e (.objSpec ((s, .vstr d) :: t))
          = addHandledMethod e s (.str d) .undef .undef >>= fun e' =>
              addHandledMethods e' (.objSpec t))
      ∧ (∀ s b t, addHandledMethods e (.objSpec ((s, .vbool b) :: t))
          = addHandledMethod e s .null (.bool b) .undef >>= fun e' =>
              addHandledMethods e' (.objSpec t))
      ∧ (∀ s d m c t, addHandledMethods e (.objSpec ((s, .vobj d m c) :: t))
          = addHandledMethod e s d m c >>= fun e' =>
              addHandledMethods e' (.objSpec t))
      ∧ (∀ x, addHandledMethods e (.other x) = .ok e) := by
  refine ⟨fun names => addHandledList_eq_foldlM names e, ?_, ?_, ?_, fun _ => rfl⟩
  · intro s d t
    show addHandledSpecs e ((s, .vstr d) :: t) = _
    rcases hstep : addHandledMethod e s (.str d) .undef .undef with msg | e'
    · simp only [addHandledSpecs, hstep]
      rfl
    · simp only [addHandledSpecs, hstep]
      rfl
  · intro s b t
    show addHandledSpecs e ((s, .vbool b) :: t) = _
    rcases hstep : addHandledMethod e s .null (.bool b) .undef with msg | e'
    · simp only [addHandledSpecs, hstep]
      rfl
    · simp only [addHandledSpecs, hstep]
      rfl
  · intro s d m c t
    show addHandledSpecs e ((s, .vobj d m c) :: t) = _
    rcases hstep : addHandledMethod e s d m c with msg | e'
    · simp only [addHandledSpecs, hstep]
      rfl
    · simp only [addHandledSpecs, hstep]
      rfl

/-- An extension with a `baz` method whose parent has an own property
`baz` that exists with value `undefined`, and an inherited non-
`undefined` property `quux`. -/
def e10 : Extension :=
  ⟨⟨[("baz", PropVal.v JSVal.undef)], [("quux", PropVal.v (JSVal.num 7))]⟩,
   [("baz", fun _ _ => JSVal.undef), ("quux", fun _ _ => JSVal.undef)]⟩

/-- C10: the destination-collision check of `addHandledMethod`
compares `parent[destName]` to `undefined` rather than testing
property existence: with `canReplace` falsy, installation proceeds
exactly when the read value is `undefined` — an own property whose
value is `undefined` and an absent property alike — while any
non-`undefined` value, own or inherited from the prototype, triggers
the collision error. -/
theorem collision_check_is_undefined_test (e : Extension) (srcName : String)
    (destName modelIsThis canReplace : JSVal)
    (hsrc : (alookup e.methods srcName).isSome = true)
    (hcr : truthy canReplace = false) :
    ((getVal e.parent (resolveDest destName srcName)).isUndef = true →
        ∃ e', addHandledMethod e srcName destName modelIsThis canReplace = .ok e')
      ∧ ((getVal e.parent (resolveDest destName srcName)).isUndef = false →
          addHandledMethod e srcName destName modelIsThis canReplace
            = .error (resolveDest destName srcName ++ " was already defined in the Model"))
      ∧ (alookup e.parent.own (resolveDest destName srcName) = some (.v .undef) →
          ∃ e', addHandledMethod e srcName destName modelIsThis canReplace = .ok e')
      ∧ (alookup e.parent.own (resolveDest destName srcName) = none →
          alookup e.parent.proto (resolveDest destName srcName) = none →
          ∃ e', addHandledMethod e srcName destName modelIsThis canReplace = .ok e')
      ∧ (∀ pv, alookup e.parent.own (resolveDest destName srcName) = none →
          alookup e.parent.proto (resolveDest destName srcName) = some pv →
          pv.isUndef = false →
          addHandledMethod e srcName destName modelIsThis canReplace
            = .error (resolveDest destName srcName ++ " was already defined in the Model")) := by
  obtain ⟨m, hm⟩ := Option.isSome_iff_exists.mp hsrc
  have hok : (getVal e.parent (resolveDest destName srcName)).isUndef = true →
      ∃ e', addHandledMethod e srcName destName modelIsThis canReplace = .ok e' := by
    intro hud
    exact ⟨_, addHandledMethod_ok_eq hm (by rw [hcr, hud]; rfl)⟩
  have herr : (getVal e.parent (resolveDest destName srcName)).isUndef = false →
      addHandledMethod e srcName destName modelIsThis canReplace
        = .error (resolveDest destName srcName ++ " was already defined in the Model") := by
    intro hud
    have hrepf : (truthy canReplace
        || (getVal e.parent (resolveDest destName srcName)).isUndef) = false := by
      rw [hcr, hud]
      rfl
    simp [addHandledMethod, hm, hrepf]
  refine ⟨hok, herr, ?_, ?_, ?_⟩
  · intro hown
    exact hok (by simp [getVal, hown, PropVal.isUndef])
  · intro hown hproto
    exact hok (by simp [getVal, hown, hproto, PropVal.isUndef])
  · intro pv hown hproto hpv
    exact herr (by simp [getVal, hown, hproto, hpv])

/-- C10 witness: on the concrete extension `e10`, whose parent has an
own `baz` property that exists with value `undefined`, installing
`baz` without `canReplace` proceeds without error. -/
theorem collision_check_is_undefined_test_witness :
    ∃ e', addHandledMethod e10 "baz" JSVal.undef JSVal.undef JSVal.undef = .ok e' :=
  (collision_check_is_undefined_test e10 "baz" JSVal.undef JSVal.undef JSVal.undef
    (by decide) (by decide)).1 (by decide)
